import Mathlib

/-!
Shallow embedding of `movement_validation/statistics/histogram.py`
(the `Histogram` class: per-video bin computation, binning, lazy
statistics, and the merge factory), with theorems checking the module's
specification.  Real-valued data is modelled by `ℚ` (the algorithms use
only ring operations, `floor`, `ceil`, comparisons and `round`, which are
exact on rationals); `np.sqrt` in the standard-deviation formula is
modelled by `Real.sqrt`.  Python exceptions are modelled by `Except`.
-/

/-- The Python exceptions the histogram module can raise.
`configurationError` models the `Exception` raised by
`compute_covering_bins` when the bin count exceeds `MAX_NUMBER_BINS`
(the spec calls it a "`ConfigurationError`/equivalent"). -/
inductive PyErr where
  | valueError
  | configurationError
  | typeError
  | attributeError
  | indexError
  deriving DecidableEq, Repr

/-- `min(xs)` of Python over a list of numbers; Python raises on an empty
list, callers below only reach it with non-empty lists (the empty case
here returns a junk value `0` and is never relied upon). -/
def py_min : List ℚ → ℚ
  | [] => 0
  | x :: xs => xs.foldl min x

/-- `max(xs)` of Python, as `py_min`. -/
def py_max : List ℚ → ℚ
  | [] => 0
  | x :: xs => xs.foldl max x

/-- The arithmetic progression `a, a+w, …, a+(n-1)w`: the exact value set
`np.arange` produces (numpy fills index `j` with `start + j*step`). -/
def grid_list (a w : ℚ) (n : ℕ) : List ℚ :=
  List.map (fun j : ℕ => a + (j : ℚ) * w) (List.range n)

/-- `np.arange(start, stop, step)` for `step > 0`: numpy's length formula
is `ceil((stop - start)/step)` (empty when nonpositive), element `j` is
`start + j*step`. -/
def np_arange (start stop step : ℚ) : List ℚ :=
  grid_list start step (⌈(stop - start) / step⌉).toNat

/-- `np.histogram(data, bins=edges)[0]`: bin `i` counts values with
`edges[i] <= x < edges[i+1]`, except the final bin which is closed on the
right.  Fewer than two edges yield no bins. -/
def np_histogram (data : List ℚ) : List ℚ → List ℕ
  | [lo, hi] => [data.countP (fun x => decide (lo ≤ x ∧ x ≤ hi))]
  | lo :: hi :: c :: rest =>
      data.countP (fun x => decide (lo ≤ x ∧ x < hi)) ::
        np_histogram data (hi :: c :: rest)
  | _ => []

/-- `np.round` on a scalar: round half to even (banker's rounding). -/
def np_round (q : ℚ) : ℤ :=
  let f := ⌊q⌋
  let r := q - f
  if r < 1/2 then f
  else if 1/2 < r then f + 1
  else if f % 2 = 0 then f else f + 1

/-- `min_boundary = np.floor(min_data / bin_width) * bin_width` of
`compute_covering_bins`. -/
def min_boundary (w : ℚ) (data : List ℚ) : ℚ :=
  ⌊py_min data / w⌋ * w

/-- `max_boundary = np.ceil(max_data / bin_width) * bin_width`, before the
degenerate-range guard. -/
def max_boundary_pre (w : ℚ) (data : List ℚ) : ℚ :=
  ⌈py_max data / w⌉ * w

/-- `max_boundary` after the guard
`if min_boundary == max_boundary: max_boundary = min_boundary + bin_width`. -/
def max_boundary (w : ℚ) (data : List ℚ) : ℚ :=
  if min_boundary w data = max_boundary_pre w data then
    min_boundary w data + w
  else max_boundary_pre w data

/-- `num_bins = (max_boundary - min_boundary) / bin_width` of
`compute_covering_bins`. -/
def num_bins_of (w : ℚ) (data : List ℚ) : ℚ :=
  (max_boundary w data - min_boundary w data) / w

/-- `compute_covering_bins`, parameterised by the externally configurable
`config.MAX_NUMBER_BINS` (its module is outside the embedded sources; the
spec only requires it to be a fixed configurable bound).  `min`/`max` of
an empty array raise `ValueError` in Python; otherwise the boundaries are
`np.arange(min_boundary, max_boundary + bin_width, bin_width)` unless
`num_bins` exceeds the bound, which raises. -/
def compute_covering_bins (maxBins : ℕ) (w : ℚ) (data : List ℚ) :
    Except PyErr (List ℚ) :=
  match data with
  | [] => .error .valueError
  | _ :: _ =>
    if num_bins_of w data > (maxBins : ℚ) then .error .configurationError
    else .ok (np_arange (min_boundary w data) (max_boundary w data + w) w)

/-- `self.bin_boundaries[:-1] + self.specs.bin_width/2`: the
`bin_midpoints` property of a per-video histogram. -/
def bin_midpoints_of (w : ℚ) (boundaries : List ℚ) : List ℚ :=
  boundaries.dropLast.map (fun b => b + w / 2)

/-- `num_samples = len(self.data)` for a per-video histogram. -/
def num_samples_of (data : List ℚ) : ℕ := data.length

/-- `np.mean(self.data)`: the `mean_per_video` of a per-video histogram. -/
def mean_per_video_of (data : List ℚ) : ℚ :=
  data.sum / (data.length : ℚ)

/-- `std_per_video` of a per-video histogram: `0` when there is a single
sample, else the Bessel-corrected standard deviation
`np.sqrt((1/(n-1)) * sum((data - mean)**2))`. -/
noncomputable def std_per_video_of (data : List ℚ) : ℝ :=
  if data.length = 1 then 0
  else Real.sqrt ((1 / ((data.length : ℝ) - 1)) *
    (data.map (fun x => ((x : ℚ) - mean_per_video_of data : ℚ) ^ 2)).sum)

/-- The argument `create_histogram` receives: Python `None`, an object
that is not a `np.ndarray`, or an array of values. -/
inductive NpInput where
  | pyNone
  | notArray
  | ndarray (data : List ℚ)
  deriving DecidableEq

/-- A per-video `Histogram` as the constructor leaves it: the raw data and
the computed `bin_boundaries`. -/
structure PerVideoHist where
  data : List ℚ
  bin_boundaries : List ℚ
  deriving DecidableEq

/-- `create_histogram`: returns Python `None` when the data is `None`, not
an `np.ndarray`, or empty; otherwise builds the instance (running
`compute_covering_bins`, whose exception propagates). -/
def create_histogram (maxBins : ℕ) (w : ℚ) (input : NpInput) :
    Except PyErr (Option PerVideoHist) :=
  match input with
  | .pyNone => .ok none
  | .notArray => .ok none
  | .ndarray d =>
    if d.length = 0 then .ok none
    else (compute_covering_bins maxBins w d).map (fun b => some ⟨d, b⟩)

/-- Decidable equality for `Except` results (used to state and check
concrete runs of the embedded functions). -/
instance {ε α : Type} [DecidableEq ε] [DecidableEq α] :
    DecidableEq (Except ε α) := fun a b =>
  match a, b with
  | .ok x, .ok y =>
    if h : x = y then .isTrue (by rw [h])
    else .isFalse (fun hh => h (Except.ok.inj hh))
  | .ok _, .error _ => .isFalse (fun hh => Except.noConfusion hh)
  | .error _, .ok _ => .isFalse (fun hh => Except.noConfusion hh)
  | .error e, .error f =>
    if h : e = f then .isTrue (by rw [h])
    else .isFalse (fun hh => h (Except.error.inj hh))

/-- The read surface of one input histogram that
`merged_histogram_factory` consumes: its `bin_midpoints`, `counts`,
`num_samples`, `mean_per_video` and `std_per_video` properties (for a
per-video histogram these are `bin_midpoints_of`, `np_histogram`,
`num_samples_of`, `mean_per_video_of`, `std_per_video_of` of its data). -/
structure HistRecord where
  bin_midpoints : List ℚ
  counts : List ℕ
  num_samples : ℕ
  mean_per_video : ℚ
  std_per_video : ℝ

instance : Inhabited HistRecord := ⟨⟨[], [], 0, 0, 0⟩⟩

/-- `first_bin_midpoint = self.bin_midpoints[0]` (callers guarantee a
non-empty midpoint array; Python would raise `IndexError` otherwise). -/
def first_bin_midpoint (r : HistRecord) : ℚ := r.bin_midpoints.headD 0

/-- `last_bin_midpoint = self.bin_midpoints[-1]`. -/
def last_bin_midpoint (r : HistRecord) : ℚ := r.bin_midpoints.getLastD 0

/-- `num_bins = len(self.bin_midpoints)`. -/
def num_bins (r : HistRecord) : ℕ := r.bin_midpoints.length

/-- `new_bin_midpoints = np.arange(min_bin_midpoint,
max_bin_midpoint + cur_bin_width, step=cur_bin_width)` of
`merged_histogram_factory`. -/
def merged_bin_midpoints (w : ℚ) (hists : List HistRecord) : List ℚ :=
  np_arange (py_min (hists.map first_bin_midpoint))
    (py_max (hists.map last_bin_midpoint) + w) w

/-- Python slice-index normalisation for a length-`n` sequence: a negative
index counts from the end, then the result is clamped into `[0, n]`. -/
def slice_norm (n : ℕ) (i : ℤ) : ℕ :=
  (max 0 (min (n : ℤ) (if i < 0 then i + n else i))).toNat

/-- `row[s:e] = vals` on a numpy 1-D array: the slice is normalised and
clamped; assignment succeeds when the value count matches the slice
length, or broadcasts a single value across the slice; any other
mismatch raises `ValueError`. -/
def slice_assign (row : List ℕ) (s e : ℤ) (vals : List ℕ) :
    Except PyErr (List ℕ) :=
  let s2 := slice_norm row.length s
  let e2 := slice_norm row.length e
  let len := e2 - s2
  if len = vals.length then
    .ok (row.take s2 ++ vals ++ row.drop (s2 + vals.length))
  else if vals.length = 1 then
    .ok (row.take s2 ++ List.replicate len (vals.headD 0) ++ row.drop (s2 + len))
  else .error .valueError

/-- The `new_counts` matrix built by `merged_histogram_factory`: one
all-zero row of length `len(new_bin_midpoints)` per input histogram, with
`new_counts[i, start_indices[i]:end_indices[i]] = histograms[i].counts`
where `start_indices = round((first_bin_midpoints - min_bin_midpoint) /
cur_bin_width)` and `end_indices = start_indices + num_bins`.  `min` of
an empty list raises `ValueError`.  (The source also skips a row whose
start index is NaN; rationals have no NaN, so that guard never fires
here.) -/
def merged_counts (w : ℚ) (hists : List HistRecord) :
    Except PyErr (List (List ℕ)) :=
  match hists with
  | [] => .error .valueError
  | _ :: _ =>
    let L := (merged_bin_midpoints w hists).length
    let minMid := py_min (hists.map first_bin_midpoint)
    hists.mapM (fun r =>
      let s := np_round ((first_bin_midpoint r - minMid) / w)
      slice_assign (List.replicate L 0) s (s + (num_bins r : ℤ)) r.counts)

/-- `merged_hist._num_samples = np.array([x.num_samples for x in histograms])`. -/
def merged_num_samples (hists : List HistRecord) : List ℕ :=
  hists.map HistRecord.num_samples

/-- Python builtin `sum(matrix, 0)` over a 2-D numpy array: iterates over
the rows and adds them elementwise (`0 + first_row` broadcasts to the
first row).  The empty-matrix case returns the scalar `0`, which never
arises from a non-empty merge. -/
def py_sum_rows : List (List ℕ) → List ℕ
  | [] => []
  | r :: rs => rs.foldl (fun acc row => acc.zipWith (· + ·) row) r

/-- `merged_hist._pdf = sum(merged_hist.counts, 0) /
sum(merged_hist.num_samples)`. -/
def pdf_from_counts (M : List (List ℕ)) (samples : List ℕ) : List ℚ :=
  List.map (fun c : ℕ => (c : ℚ) / ((samples.sum : ℕ) : ℚ)) (py_sum_rows M)

/-- The `pdf` of a merged histogram, as assigned by
`merged_histogram_factory`. -/
def merged_pdf (w : ℚ) (hists : List HistRecord) : Except PyErr (List ℚ) :=
  (merged_counts w hists).map (fun M => pdf_from_counts M (merged_num_samples hists))

/-- The midpoint grid a per-video histogram owns: boundaries sit at
`(z+j)*bin_width`, so midpoints sit at `z*bin_width + bin_width/2 + j*bin_width`. -/
def mid_grid (w : ℚ) (z : ℤ) (n : ℕ) : List ℚ :=
  grid_list ((z : ℚ) * w + w / 2) w n

/-- A numpy statistic that is a scalar for a per-video histogram and an
array (one entry per video) for a merged one. -/
inductive PyV (α : Type) where
  | one (a : α)
  | many (l : List α)

/-- `self.counts`: a 1-D array for a per-video histogram, the 2-D
`new_counts` matrix for a merged one. -/
inductive CountsV where
  | one (l : List ℕ)
  | many (m : List (List ℕ))

/-- The attribute state of a `Histogram` object: `data` is the raw array
or Python `None`; `bin_boundaries` is set only when the constructor ran
`compute_covering_bins`; the remaining fields are the lazily cached
underscore attributes (`_bin_midpoints`, `_counts`, `_num_samples`,
`_mean_per_video`, `_std_per_video`, `_pdf`), absent until first access
or until `merged_histogram_factory` assigns them.  A cached `pdf` of
Python `None` (zero total count) is `some none`. -/
structure HistObj where
  data : Option (List ℚ)
  bin_boundaries : Option (List ℚ)
  u_bin_midpoints : Option (List ℚ)
  u_counts : Option CountsV
  u_num_samples : Option (PyV ℕ)
  u_mean_per_video : Option (PyV ℚ)
  u_std_per_video : Option (PyV ℝ)
  u_pdf : Option (Option (List ℚ))

/-- `Histogram.__init__`: stores `data` and, when it is not `None`, runs
`compute_covering_bins` to populate `bin_boundaries` (its exception
propagates).  No cached attribute exists yet. -/
def histogram_init (maxBins : ℕ) (w : ℚ) (data : Option (List ℚ)) :
    Except PyErr HistObj :=
  match data with
  | none => .ok ⟨none, none, none, none, none, none, none, none⟩
  | some d =>
    (compute_covering_bins maxBins w d).map
      (fun b => ⟨some d, some b, none, none, none, none, none, none⟩)

/-- Reading `self.bin_boundaries`: a plain attribute, so absent means
`AttributeError`. -/
def get_bin_boundaries (h : HistObj) : Except PyErr (List ℚ) :=
  match h.bin_boundaries with
  | some b => .ok b
  | none => .error .attributeError

/-- The `bin_midpoints` property: the cached `_bin_midpoints` if present,
else computed from `self.bin_boundaries`. -/
def get_bin_midpoints (w : ℚ) (h : HistObj) : Except PyErr (List ℚ) :=
  match h.u_bin_midpoints with
  | some m => .ok m
  | none => (get_bin_boundaries h).map (fun b => bin_midpoints_of w b)

/-- The `counts` property: the cache if present, else
`np.histogram(self.data, bins=self.bin_boundaries)`; with `data` of
`None` numpy raises a `TypeError`. -/
def get_counts (h : HistObj) : Except PyErr CountsV :=
  match h.u_counts with
  | some c => .ok c
  | none =>
    match h.data with
    | none => .error .typeError
    | some d => (get_bin_boundaries h).map (fun b => .one (np_histogram d b))

/-- The `num_samples` property: the cache if present, else
`len(self.data)`; `len(None)` raises `TypeError`. -/
def get_num_samples (h : HistObj) : Except PyErr (PyV ℕ) :=
  match h.u_num_samples with
  | some v => .ok v
  | none =>
    match h.data with
    | none => .error .typeError
    | some d => .ok (.one (num_samples_of d))

/-- The `mean_per_video` property: the cache if present, else
`np.mean(self.data)`; `np.mean(None)` raises `TypeError`. -/
def get_mean_per_video (h : HistObj) : Except PyErr (PyV ℚ) :=
  match h.u_mean_per_video with
  | some v => .ok v
  | none =>
    match h.data with
    | none => .error .typeError
    | some d => .ok (.one (mean_per_video_of d))

/-- The `std_per_video` property: the cache if present, else computed
from `self.data`; `len(None)` raises `TypeError`. -/
noncomputable def get_std_per_video (h : HistObj) : Except PyErr (PyV ℝ) :=
  match h.u_std_per_video with
  | some v => .ok v
  | none =>
    match h.data with
    | none => .error .typeError
    | some d => .ok (.one (std_per_video_of d))

/-- The `pdf` property: the cache if present, else `counts/sum(counts)`
from the `counts` property, Python `None` when the total count is zero.
(The uncached 2-D branch cannot occur: a merged histogram always has its
`_pdf` assigned by the factory; `TypeError` stands for Python's failure
on a matrix there.) -/
def get_pdf (h : HistObj) : Except PyErr (Option (List ℚ)) :=
  match h.u_pdf with
  | some v => .ok v
  | none =>
    match get_counts h with
    | .error e => .error e
    | .ok (.one c) =>
      .ok (if c.sum = 0 then none
           else some (c.map (fun x => (x : ℚ) / ((c.sum : ℕ) : ℚ))))
    | .ok (.many _) => .error .typeError

/-- `merged_histogram_factory`: builds a shell object with `data=None`
(so `compute_covering_bins` never runs and `bin_boundaries` is never
set), then assigns the cached attributes `_bin_midpoints`, `_counts`,
`_num_samples`, `_mean_per_video`, `_std_per_video` and `_pdf` from the
aligned inputs.  `histograms[0]` of an empty list raises `IndexError`. -/
def merged_histogram_factory (maxBins : ℕ) (w : ℚ)
    (hists : List HistRecord) : Except PyErr HistObj :=
  match hists with
  | [] => .error .indexError
  | _ :: _ =>
    (histogram_init maxBins w none).bind (fun shell =>
      (merged_counts w hists).map (fun M =>
        { shell with
          u_bin_midpoints := some (merged_bin_midpoints w hists),
          u_counts := some (.many M),
          u_num_samples := some (.many (merged_num_samples hists)),
          u_mean_per_video := some (.many (hists.map HistRecord.mean_per_video)),
          u_std_per_video := some (.many (hists.map HistRecord.std_per_video)),
          u_pdf := some (some (pdf_from_counts M (merged_num_samples hists))) }))

/-- `num_valid_measurements = sum(~np.isnan(self.mean_per_video))`: on a
scalar (a per-video histogram) the builtin `sum` receives a
non-iterable `numpy.bool_` and raises `TypeError`; on an array it counts
the non-NaN entries (rationals have no NaN, so all entries count). -/
def num_valid_measurements {α : Type} : PyV α → Except PyErr ℕ
  | .one _ => .error .typeError
  | .many l => .ok l.length

/-- `p_normal`: `NaN` (modelled `none`) when fewer than 3 valid
measurements exist, else the Shapiro-Wilk p-value of the video means —
`scipy.stats.shapiro` is external, so it is an opaque parameter.  The
`TypeError` from `num_valid_measurements` propagates. -/
def p_normal (shapiro : PyV ℚ → ℚ) (m : PyV ℚ) :
    Except PyErr (Option ℚ) :=
  match num_valid_measurements m with
  | .error e => .error e
  | .ok n => if n < 3 then .ok none else .ok (some (shapiro m))

/-- `mean_per_video` as stored on a per-video histogram: `np.mean(data)`,
a numpy scalar. -/
def per_video_mean_attr (data : List ℚ) : PyV ℚ :=
  .one (mean_per_video_of data)

/-- `mean_per_video` as stored on a merged histogram: one entry per
input video. -/
def merged_mean_attr (hists : List HistRecord) : PyV ℚ :=
  .many (hists.map HistRecord.mean_per_video)

/-- The spec's merge example, histogram A: midpoints `[1.5, 2.5, 3.5]`,
counts `[2, 3, 1]` (so 6 samples). -/
def histA : HistRecord := ⟨[3/2, 5/2, 7/2], [2, 3, 1], 6, 5/2, 0⟩

/-- The spec's merge example, histogram B: midpoints
`[2.5, 3.5, 4.5, 5.5]`, counts `[1, 4, 2, 0]` (so 7 samples). -/
def histB : HistRecord := ⟨[5/2, 7/2, 9/2, 11/2], [1, 4, 2, 0], 7, 7/2, 0⟩

theorem foldl_min_le_init : ∀ (xs : List ℚ) (a : ℚ), xs.foldl min a ≤ a
  | [], a => le_refl a
  | y :: ys, a => le_trans (foldl_min_le_init ys (min a y)) (min_le_left a y)

theorem foldl_min_le_mem : ∀ (xs : List ℚ) (a : ℚ) {x : ℚ}, x ∈ xs → xs.foldl min a ≤ x
  | y :: ys, a, x, hx => by
    rcases List.mem_cons.mp hx with rfl | hx
    · exact le_trans (foldl_min_le_init ys (min a x)) (min_le_right a x)
    · exact foldl_min_le_mem ys (min a y) hx

theorem foldl_min_mem : ∀ (xs : List ℚ) (a : ℚ), xs.foldl min a = a ∨ xs.foldl min a ∈ xs
  | [], a => Or.inl rfl
  | y :: ys, a => by
    rcases foldl_min_mem ys (min a y) with h | h
    · rcases min_cases a y with ⟨hm, _⟩ | ⟨hm, _⟩
      · exact Or.inl (by rw [List.foldl_cons, h, hm])
      · exact Or.inr (by rw [List.foldl_cons, h, hm]; exact List.mem_cons_self _ _)
    · exact Or.inr (List.mem_cons_of_mem _ h)

theorem py_min_le {xs : List ℚ} {x : ℚ} (hx : x ∈ xs) : py_min xs ≤ x := by
  cases xs with
  | nil => cases hx
  | cons y ys =>
    show ys.foldl min y ≤ x
    rcases List.mem_cons.mp hx with rfl | hx
    · exact foldl_min_le_init ys x
    · exact foldl_min_le_mem ys y hx

theorem py_min_mem {xs : List ℚ} (h : xs ≠ []) : py_min xs ∈ xs := by
  cases xs with
  | nil => exact absurd rfl h
  | cons y ys =>
    show ys.foldl min y ∈ y :: ys
    rcases foldl_min_mem ys y with h1 | h1
    · rw [h1]; exact List.mem_cons_self _ _
    · exact List.mem_cons_of_mem _ h1

theorem foldl_max_init_le : ∀ (xs : List ℚ) (a : ℚ), a ≤ xs.foldl max a
  | [], a => le_refl a
  | y :: ys, a => le_trans (le_max_left a y) (foldl_max_init_le ys (max a y))

theorem foldl_max_mem_le : ∀ (xs : List ℚ) (a : ℚ) {x : ℚ}, x ∈ xs → x ≤ xs.foldl max a
  | y :: ys, a, x, hx => by
    rcases List.mem_cons.mp hx with rfl | hx
    · exact le_trans (le_max_right a x) (foldl_max_init_le ys (max a x))
    · exact foldl_max_mem_le ys (max a y) hx

theorem foldl_max_mem : ∀ (xs : List ℚ) (a : ℚ), xs.foldl max a = a ∨ xs.foldl max a ∈ xs
  | [], a => Or.inl rfl
  | y :: ys, a => by
    rcases foldl_max_mem ys (max a y) with h | h
    · rcases max_cases a y with ⟨hm, _⟩ | ⟨hm, _⟩
      · exact Or.inl (by rw [List.foldl_cons, h, hm])
      · exact Or.inr (by rw [List.foldl_cons, h, hm]; exact List.mem_cons_self _ _)
    · exact Or.inr (List.mem_cons_of_mem _ h)

theorem le_py_max {xs : List ℚ} {x : ℚ} (hx : x ∈ xs) : x ≤ py_max xs := by
  cases xs with
  | nil => cases hx
  | cons y ys =>
    show x ≤ ys.foldl max y
    rcases List.mem_cons.mp hx with rfl | hx
    · exact foldl_max_init_le ys x
    · exact foldl_max_mem_le ys y hx

theorem py_max_mem {xs : List ℚ} (h : xs ≠ []) : py_max xs ∈ xs := by
  cases xs with
  | nil => exact absurd rfl h
  | cons y ys =>
    show ys.foldl max y ∈ y :: ys
    rcases foldl_max_mem ys y with h1 | h1
    · rw [h1]; exact List.mem_cons_self _ _
    · exact List.mem_cons_of_mem _ h1

theorem getLastD_eq_getD : ∀ (l : List ℚ) (d : ℚ), l.getLastD d = l.getD (l.length - 1) d
  | [], _ => rfl
  | [_], _ => rfl
  | a :: b :: t, d => by
    have ih := getLastD_eq_getD (b :: t) a
    rw [List.getLastD_cons, ih]
    have hlt : (b :: t).length - 1 < (b :: t).length := by simp
    have hc : (a :: b :: t).length - 1 = ((b :: t).length - 1) + 1 := by simp
    rw [hc, List.getD_cons_succ, List.getD_eq_getElem _ a hlt, List.getD_eq_getElem _ d hlt]

theorem grid_list_length (a w : ℚ) (n : ℕ) : (grid_list a w n).length = n := by
  simp [grid_list]

theorem grid_list_succ (a w : ℚ) (n : ℕ) :
    grid_list a w (n + 1) = a :: grid_list (a + w) w n := by
  unfold grid_list
  rw [List.range_succ_eq_map, List.map_cons, List.map_map]
  congr 1
  · norm_num
  · apply List.map_congr_left
    intro j hj
    simp only [Function.comp_apply]
    push_cast
    ring

theorem grid_list_concat (a w : ℚ) (n : ℕ) :
    grid_list a w (n + 1) = grid_list a w n ++ [a + n * w] := by
  unfold grid_list
  rw [List.range_succ, List.map_append]
  simp

theorem grid_list_getD (a w : ℚ) (n : ℕ) {j : ℕ} (hj : j < n) :
    (grid_list a w n).getD j 0 = a + j * w := by
  rw [List.getD_eq_getElem _ _ (by simpa [grid_list_length] using hj)]
  simp [grid_list]

theorem grid_list_headD (a w : ℚ) (n : ℕ) (hn : 0 < n) :
    (grid_list a w n).headD 0 = a := by
  obtain ⟨m, rfl⟩ := Nat.exists_eq_succ_of_ne_zero (Nat.pos_iff_ne_zero.mp hn)
  rw [grid_list_succ]
  rfl

theorem grid_list_getLastD (a w : ℚ) (n : ℕ) (hn : 0 < n) :
    (grid_list a w n).getLastD 0 = a + (n - 1 : ℕ) * w := by
  obtain ⟨m, rfl⟩ := Nat.exists_eq_succ_of_ne_zero (Nat.pos_iff_ne_zero.mp hn)
  rw [grid_list_concat]
  simp

theorem grid_list_mem {a w : ℚ} {n : ℕ} {x : ℚ} (hx : x ∈ grid_list a w n) :
    ∃ j : ℕ, j < n ∧ x = a + j * w := by
  unfold grid_list at hx
  obtain ⟨j, hj, rfl⟩ := List.mem_map.mp hx
  exact ⟨j, List.mem_range.mp hj, rfl⟩

theorem grid_list_chain (w : ℚ) (hw : 0 ≤ w) :
    ∀ (n : ℕ) (a : ℚ), (grid_list a w n).Chain' (· ≤ ·) := by
  intro n
  induction n with
  | zero => intro a; simp [grid_list]
  | succ m ih =>
    intro a
    rw [grid_list_succ]
    apply List.chain'_cons'.2
    refine ⟨?_, ih (a + w)⟩
    intro b hb
    cases m with
    | zero => simp [grid_list] at hb
    | succ k =>
      rw [grid_list_succ] at hb
      simp only [List.head?_cons, Option.mem_def, Option.some.injEq] at hb
      rw [← hb]
      linarith

theorem np_arange_grid (a w : ℚ) (n : ℕ) (hw : 0 < w) :
    np_arange a (a + (n : ℚ) * w) w = grid_list a w n := by
  unfold np_arange
  congr 1
  have h1 : (a + (n : ℚ) * w - a) / w = (n : ℚ) := by
    field_simp
  rw [h1, Int.ceil_natCast]
  simp

theorem np_arange_grid_int (a w : ℚ) (k : ℤ) (hw : 0 < w) (hk : 0 ≤ k) :
    np_arange a (a + (k : ℚ) * w) w = grid_list a w k.toNat := by
  have h1 : ((k.toNat : ℕ) : ℚ) = (k : ℚ) := by
    exact_mod_cast congrArg (fun z : ℤ => (z : ℚ)) (Int.toNat_of_nonneg hk)
  rw [← h1, np_arange_grid a w k.toNat hw]

theorem min_boundary_le (w : ℚ) (data : List ℚ) (hw : 0 < w) :
    min_boundary w data ≤ py_min data := by
  unfold min_boundary
  have h1 : (⌊py_min data / w⌋ : ℚ) ≤ py_min data / w := Int.floor_le _
  calc (⌊py_min data / w⌋ : ℚ) * w ≤ (py_min data / w) * w :=
        mul_le_mul_of_nonneg_right h1 hw.le
    _ = py_min data := div_mul_cancel₀ _ (ne_of_gt hw)

theorem le_max_boundary_pre (w : ℚ) (data : List ℚ) (hw : 0 < w) :
    py_max data ≤ max_boundary_pre w data := by
  unfold max_boundary_pre
  have h1 : py_max data / w ≤ (⌈py_max data / w⌉ : ℚ) := Int.le_ceil _
  calc py_max data = (py_max data / w) * w := (div_mul_cancel₀ _ (ne_of_gt hw)).symm
    _ ≤ (⌈py_max data / w⌉ : ℚ) * w := mul_le_mul_of_nonneg_right h1 hw.le

theorem max_boundary_pre_le (w : ℚ) (data : List ℚ) (hw : 0 < w) :
    max_boundary_pre w data ≤ max_boundary w data := by
  unfold max_boundary
  split
  · next h => rw [← h]; linarith
  · exact le_refl _

theorem py_min_le_py_max (data : List ℚ) (hne : data ≠ []) :
    py_min data ≤ py_max data := by
  obtain ⟨x, hx⟩ := List.exists_mem_of_ne_nil data hne
  exact le_trans (py_min_le hx) (le_py_max hx)

theorem ccb_spec (maxBins : ℕ) (w : ℚ) (data : List ℚ) (b : List ℚ)
    (hw : 0 < w) (hne : data ≠ [])
    (hok : compute_covering_bins maxBins w data = .ok b) :
    ∃ m : ℕ, 1 ≤ m ∧
      max_boundary w data = min_boundary w data + (m : ℚ) * w ∧
      b = grid_list (min_boundary w data) w (m + 1) := by
  have hb : b = np_arange (min_boundary w data) (max_boundary w data + w) w := by
    cases data with
    | nil => exact absurd rfl hne
    | cons x xs =>
      rw [compute_covering_bins] at hok
      by_cases hgt : num_bins_of w (x :: xs) > ((maxBins : ℕ) : ℚ)
      · rw [if_pos hgt] at hok; cases hok
      · rw [if_neg hgt] at hok
        exact (Except.ok.inj hok).symm
  have hdiv : py_min data / w ≤ py_max data / w := by
    have h2 := py_min_le_py_max data hne
    gcongr
  have hmono : ⌊py_min data / w⌋ ≤ ⌈py_max data / w⌉ :=
    le_trans (Int.floor_le_floor hdiv) (Int.floor_le_ceil _)
  by_cases hdeg : min_boundary w data = max_boundary_pre w data
  · refine ⟨1, le_refl 1, ?_, ?_⟩
    · unfold max_boundary
      rw [if_pos hdeg]
      push_cast
      ring
    · rw [hb]
      unfold max_boundary
      rw [if_pos hdeg]
      have h3 : min_boundary w data + w + w =
          min_boundary w data + ((1 + 1 : ℕ) : ℚ) * w := by
        push_cast; ring
      rw [h3, np_arange_grid _ _ _ hw]
  · have hzz : ⌊py_min data / w⌋ < ⌈py_max data / w⌉ := by
      rcases lt_or_eq_of_le hmono with h | h
      · exact h
      · exact absurd (by unfold min_boundary max_boundary_pre; rw [h]) hdeg
    refine ⟨(⌈py_max data / w⌉ - ⌊py_min data / w⌋).toNat, ?_, ?_, ?_⟩
    · have h4 := Int.toNat_of_nonneg (sub_pos.mpr hzz).le
      omega
    · unfold max_boundary
      rw [if_neg hdeg]
      unfold max_boundary_pre min_boundary
      have hcast : (((⌈py_max data / w⌉ - ⌊py_min data / w⌋).toNat : ℕ) : ℚ) =
          ((⌈py_max data / w⌉ - ⌊py_min data / w⌋ : ℤ) : ℚ) := by
        exact_mod_cast congrArg (fun z : ℤ => (z : ℚ))
          (Int.toNat_of_nonneg (sub_pos.mpr hzz).le)
      rw [hcast]
      push_cast
      ring
    · rw [hb]
      have hmb : max_boundary w data =
          min_boundary w data +
            (((⌈py_max data / w⌉ - ⌊py_min data / w⌋).toNat : ℕ) : ℚ) * w := by
        unfold max_boundary
        rw [if_neg hdeg]
        unfold max_boundary_pre min_boundary
        have hcast : (((⌈py_max data / w⌉ - ⌊py_min data / w⌋).toNat : ℕ) : ℚ) =
            ((⌈py_max data / w⌉ - ⌊py_min data / w⌋ : ℤ) : ℚ) := by
          exact_mod_cast congrArg (fun z : ℤ => (z : ℚ))
            (Int.toNat_of_nonneg (sub_pos.mpr hzz).le)
        rw [hcast]
        push_cast
        ring
      rw [hmb]
      have h5 : min_boundary w data +
            (((⌈py_max data / w⌉ - ⌊py_min data / w⌋).toNat : ℕ) : ℚ) * w + w =
          min_boundary w data +
            ((((⌈py_max data / w⌉ - ⌊py_min data / w⌋).toNat + 1 : ℕ)) : ℚ) * w := by
        push_cast
        ring
      rw [h5, np_arange_grid _ _ _ hw]

theorem np_histogram_length (data : List ℚ) :
    ∀ (bins : List ℚ), (np_histogram data bins).length = bins.length - 1
  | [] => rfl
  | [_] => rfl
  | [_, _] => rfl
  | lo :: hi :: c :: rest => by
    have ih := np_histogram_length data (hi :: c :: rest)
    simp only [np_histogram, List.length_cons] at ih ⊢
    omega

theorem np_histogram_filter_ge (data : List ℚ) :
    ∀ (bins : List ℚ), bins.Chain' (· ≤ ·) →
      np_histogram (data.filter (fun x => decide (bins.headD 0 ≤ x))) bins =
        np_histogram data bins
  | [] => fun _ => rfl
  | [_] => fun _ => rfl
  | [lo, hi] => by
    intro hchain
    simp only [np_histogram, List.headD_cons]
    congr 1
    rw [List.countP_filter]
    apply List.countP_congr
    intro x _
    constructor
    · intro hx
      simp only [Bool.and_eq_true, decide_eq_true_eq] at hx
      simp only [decide_eq_true_eq]
      exact hx.1
    · intro hx
      simp only [decide_eq_true_eq] at hx
      simp only [Bool.and_eq_true, decide_eq_true_eq]
      exact ⟨hx, hx.1⟩
  | lo :: hi :: c :: rest => by
    intro hchain
    have hlohi : lo ≤ hi := (List.chain'_cons.mp hchain).1
    have htail : (hi :: c :: rest).Chain' (· ≤ ·) := (List.chain'_cons.mp hchain).2
    simp only [np_histogram, List.headD_cons]
    have h1 := np_histogram_filter_ge data (hi :: c :: rest) htail
    have h2 := np_histogram_filter_ge (data.filter (fun x => decide (lo ≤ x)))
      (hi :: c :: rest) htail
    simp only [List.headD_cons] at h1 h2
    congr 1
    · rw [List.countP_filter]
      apply List.countP_congr
      intro x _
      constructor
      · intro hx
        simp only [Bool.and_eq_true, decide_eq_true_eq] at hx
        simp only [decide_eq_true_eq]
        exact hx.1
      · intro hx
        simp only [decide_eq_true_eq] at hx
        simp only [Bool.and_eq_true, decide_eq_true_eq]
        exact ⟨hx, hx.1⟩
    · rw [← h1, ← h2]
      congr 1
      rw [List.filter_filter]
      apply List.filter_congr
      intro x _
      by_cases hx : hi ≤ x
      · simp [hx, le_trans hlohi hx]
      · simp [hx]

theorem np_histogram_sum (data : List ℚ) :
    ∀ (bins : List ℚ), bins.Chain' (· ≤ ·) →
      (∀ x ∈ data, bins.headD 0 ≤ x ∧ x ≤ bins.getLastD 0) →
      2 ≤ bins.length →
      (np_histogram data bins).sum = data.length
  | [] => by intro _ _ h; simp at h
  | [_] => by intro _ _ h; simp at h
  | [lo, hi] => by
    intro _ hcov _
    simp only [np_histogram, List.sum_cons, List.sum_nil, Nat.add_zero]
    rw [List.countP_eq_length]
    intro x hx
    have h := hcov x hx
    simp only [List.headD_cons] at h
    have hlast : ([lo, hi] : List ℚ).getLastD 0 = hi := rfl
    rw [hlast] at h
    simpa using h
  | lo :: hi :: c :: rest => by
    intro hchain hcov _
    have hlohi : lo ≤ hi := (List.chain'_cons.mp hchain).1
    have htail : (hi :: c :: rest).Chain' (· ≤ ·) := (List.chain'_cons.mp hchain).2
    simp only [np_histogram, List.sum_cons]
    have hfilt := np_histogram_filter_ge data (hi :: c :: rest) htail
    simp only [List.headD_cons] at hfilt
    have hlasteq : (lo :: hi :: c :: rest).getLastD 0 = (hi :: c :: rest).getLastD 0 := by
      simp [List.getLastD_cons]
    have ihsum := np_histogram_sum (data.filter (fun x => decide (hi ≤ x)))
      (hi :: c :: rest) htail ?_ (by simp)
    · rw [← hfilt, ihsum]
      have hsplit := List.length_eq_countP_add_countP (p := fun x : ℚ => decide (x < hi)) data
      have hc1 : data.countP (fun x => decide (lo ≤ x ∧ x < hi)) =
          data.countP (fun x : ℚ => decide (x < hi)) := by
        apply List.countP_congr
        intro x hx
        have hlo := (hcov x hx).1
        simp only [List.headD_cons] at hlo
        simp only [decide_eq_true_eq]
        exact and_iff_right hlo
      have hc2 : (data.filter (fun x => decide (hi ≤ x))).length =
          data.countP (fun x : ℚ => ¬ decide (x < hi)) := by
        rw [← List.countP_eq_length_filter]
        apply List.countP_congr
        intro x _
        simp [not_lt]
      rw [hc1, hc2]
      omega
    · intro x hx
      have hmem := List.mem_filter.mp hx
      have hge : hi ≤ x := by simpa using hmem.2
      refine ⟨by simpa using hge, ?_⟩
      have := (hcov x hmem.1).2
      rwa [hlasteq] at this


theorem eval_min_boundary_five : min_boundary 1 [5] = 5 := by
  unfold min_boundary py_min
  norm_num

theorem eval_max_boundary_pre_five : max_boundary_pre 1 [5] = 5 := by
  unfold max_boundary_pre py_max
  norm_num

theorem eval_max_boundary_five : max_boundary 1 [5] = 6 := by
  unfold max_boundary
  rw [eval_min_boundary_five, eval_max_boundary_pre_five]
  norm_num

theorem eval_num_bins_five : num_bins_of 1 [5] = 1 := by
  unfold num_bins_of
  rw [eval_max_boundary_five, eval_min_boundary_five]
  norm_num

theorem eval_arange_5_7 : np_arange 5 7 1 = [5, 6] := by
  rw [np_arange, show (⌈(((7:ℚ) - 5)) / 1⌉).toNat = 2 from by norm_num; rfl]
  simp [grid_list, List.range_succ]
  norm_num

theorem eval_ccb_five : compute_covering_bins 1000 1 [5] = .ok [5, 6] := by
  show (if num_bins_of 1 [5] > ((1000 : ℕ) : ℚ) then Except.error PyErr.configurationError
    else .ok (np_arange (min_boundary 1 [5]) (max_boundary 1 [5] + 1) 1)) = .ok [5, 6]
  rw [eval_num_bins_five, eval_min_boundary_five, eval_max_boundary_five]
  rw [if_neg (by norm_num)]
  norm_num [eval_arange_5_7]

theorem eval_min_boundary_wide : min_boundary 1 [0, 100] = 0 := by
  unfold min_boundary py_min
  norm_num

theorem eval_max_boundary_pre_wide : max_boundary_pre 1 [0, 100] = 100 := by
  unfold max_boundary_pre py_max
  norm_num

theorem eval_num_bins_wide : num_bins_of 1 [0, 100] = 100 := by
  unfold num_bins_of max_boundary
  rw [eval_min_boundary_wide, eval_max_boundary_pre_wide]
  norm_num

theorem eval_ccb_wide : compute_covering_bins 10 1 [0, 100] = .error .configurationError := by
  show (if num_bins_of 1 [0, 100] > ((10 : ℕ) : ℚ) then Except.error PyErr.configurationError
    else .ok (np_arange (min_boundary 1 [0, 100]) (max_boundary 1 [0, 100] + 1) 1)) =
      .error .configurationError
  rw [eval_num_bins_wide, if_pos (by norm_num)]

theorem ccb_headD (maxBins : ℕ) (w : ℚ) (data b : List ℚ)
    (hw : 0 < w) (hne : data ≠ [])
    (hok : compute_covering_bins maxBins w data = .ok b) :
    b.headD 0 = min_boundary w data := by
  obtain ⟨m, _, _, hbg⟩ := ccb_spec maxBins w data b hw hne hok
  rw [hbg]
  exact grid_list_headD _ _ _ (Nat.succ_pos m)

theorem ccb_getLastD (maxBins : ℕ) (w : ℚ) (data b : List ℚ)
    (hw : 0 < w) (hne : data ≠ [])
    (hok : compute_covering_bins maxBins w data = .ok b) :
    b.getLastD 0 = max_boundary w data := by
  obtain ⟨m, _, hmb, hbg⟩ := ccb_spec maxBins w data b hw hne hok
  rw [hbg, grid_list_getLastD _ _ _ (Nat.succ_pos m), hmb]
  congr 1

/-- C3: for every non-empty input the computed boundaries cover the data
range within one bin width: `min(data) >= bin_boundaries[0] - bin_width`
and `max(data) <= bin_boundaries[-1] + bin_width`. -/
theorem c3_boundary_coverage (maxBins : ℕ) (w : ℚ) (data b : List ℚ)
    (hw : 0 < w) (hne : data ≠ [])
    (hok : compute_covering_bins maxBins w data = .ok b) :
    b.headD 0 - w ≤ py_min data ∧ py_max data ≤ b.getLastD 0 + w := by
  rw [ccb_headD maxBins w data b hw hne hok, ccb_getLastD maxBins w data b hw hne hok]
  constructor
  · have h1 := min_boundary_le w data hw
    linarith
  · have h1 := le_max_boundary_pre w data hw
    have h2 := max_boundary_pre_le w data hw
    linarith

/-- C3 witness: the coverage bounds hold for `data = [5]`, `bin_width = 1`. -/
theorem c3_boundary_coverage_witness :
    ([5, 6] : List ℚ).headD 0 - 1 ≤ py_min [5] ∧
      py_max [5] ≤ ([5, 6] : List ℚ).getLastD 0 + 1 :=
  c3_boundary_coverage 1000 1 [5] [5, 6] (by norm_num) (by simp) eval_ccb_five

/-- C4: for a per-video histogram there is one more boundary than bins and
every sample is counted exactly once: `len(bin_boundaries) = len(counts)+1`
and `sum(counts) = num_samples = len(data)`. -/
theorem c4_count_conservation (maxBins : ℕ) (w : ℚ) (data b : List ℚ)
    (hw : 0 < w) (hne : data ≠ [])
    (hok : compute_covering_bins maxBins w data = .ok b) :
    b.length = (np_histogram data b).length + 1 ∧
    (np_histogram data b).sum = num_samples_of data ∧
    num_samples_of data = data.length := by
  obtain ⟨m, hm1, hmb, hbg⟩ := ccb_spec maxBins w data b hw hne hok
  have hlen : b.length = m + 1 := by rw [hbg, grid_list_length]
  have hclen : (np_histogram data b).length = b.length - 1 := np_histogram_length data b
  refine ⟨by omega, ?_, rfl⟩
  apply np_histogram_sum data b
  · rw [hbg]
    exact grid_list_chain w hw.le (m + 1) (min_boundary w data)
  · intro x hx
    rw [ccb_headD maxBins w data b hw hne hok, ccb_getLastD maxBins w data b hw hne hok]
    constructor
    · exact le_trans (min_boundary_le w data hw) (py_min_le hx)
    · exact le_trans (le_py_max hx)
        (le_trans (le_max_boundary_pre w data hw) (max_boundary_pre_le w data hw))
  · omega

/-- C4 witness: `data = [5]`, `bin_width = 1`: two boundaries, one bin,
one sample counted. -/
theorem c4_count_conservation_witness :
    ([5, 6] : List ℚ).length = (np_histogram [5] [5, 6]).length + 1 ∧
    (np_histogram [5] [5, 6]).sum = num_samples_of [5] ∧
    num_samples_of [5] = ([5] : List ℚ).length :=
  c4_count_conservation 1000 1 [5] [5, 6] (by norm_num) (by simp) eval_ccb_five

/-- C2 (amended): all boundaries lie on the common grid of integer
multiples of the bin width, the first is `floor(min/w)*w`, consecutive
boundaries differ by `w`; the last is `ceil(max/w)*w` except in the
degenerate case `floor(min/w)*w = ceil(max/w)*w`, where one extra bin
width is added. -/
theorem c2_grid_alignment (maxBins : ℕ) (w : ℚ) (data b : List ℚ)
    (hw : 0 < w) (hne : data ≠ [])
    (hok : compute_covering_bins maxBins w data = .ok b) :
    (∀ x ∈ b, ∃ k : ℤ, x = (k : ℚ) * w) ∧
    b.headD 0 = (⌊py_min data / w⌋ : ℚ) * w ∧
    (∀ i : ℕ, i + 1 < b.length → b.getD (i + 1) 0 = b.getD i 0 + w) ∧
    b.getLastD 0 = (if (⌊py_min data / w⌋ : ℚ) * w = (⌈py_max data / w⌉ : ℚ) * w
      then (⌈py_max data / w⌉ : ℚ) * w + w
      else (⌈py_max data / w⌉ : ℚ) * w) := by
  obtain ⟨m, hm1, hmb, hbg⟩ := ccb_spec maxBins w data b hw hne hok
  have hlen : b.length = m + 1 := by rw [hbg, grid_list_length]
  refine ⟨?_, ?_, ?_, ?_⟩
  · intro x hx
    rw [hbg] at hx
    obtain ⟨j, hj, rfl⟩ := grid_list_mem hx
    refine ⟨⌊py_min data / w⌋ + j, ?_⟩
    unfold min_boundary
    push_cast
    ring
  · rw [ccb_headD maxBins w data b hw hne hok]
    rfl
  · intro i hi
    rw [hlen] at hi
    rw [hbg, grid_list_getD _ _ _ (by omega), grid_list_getD _ _ _ (by omega)]
    push_cast
    ring
  · rw [ccb_getLastD maxBins w data b hw hne hok]
    unfold max_boundary min_boundary max_boundary_pre
    split
    · next h => rw [← h]
    · rfl

/-- C2 counterexample: for `data = [5]`, `bin_width = 1` the guard fires
and the last boundary is `6`, not `ceil(max_data/bin_width)*bin_width = 5`
as the claim states. -/
theorem c2_counterexample :
    compute_covering_bins 1000 1 [5] = .ok [5, 6] ∧
    ¬ (([5, 6] : List ℚ).getLastD 0 = (⌈py_max [5] / 1⌉ : ℚ) * 1) := by
  refine ⟨eval_ccb_five, ?_⟩
  unfold py_max
  norm_num

/-- C2 witness: the amended statement instantiated at `data = [5]`,
`bin_width = 1`. -/
theorem c2_grid_alignment_witness :
    (∀ x ∈ ([5, 6] : List ℚ), ∃ k : ℤ, x = (k : ℚ) * 1) ∧
    ([5, 6] : List ℚ).headD 0 = (⌊py_min [5] / 1⌋ : ℚ) * 1 ∧
    (∀ i : ℕ, i + 1 < ([5, 6] : List ℚ).length →
      ([5, 6] : List ℚ).getD (i + 1) 0 = ([5, 6] : List ℚ).getD i 0 + 1) ∧
    ([5, 6] : List ℚ).getLastD 0 =
      (if (⌊py_min [5] / 1⌋ : ℚ) * 1 = (⌈py_max [5] / 1⌉ : ℚ) * 1
        then (⌈py_max [5] / 1⌉ : ℚ) * 1 + 1
        else (⌈py_max [5] / 1⌉ : ℚ) * 1) :=
  c2_grid_alignment 1000 1 [5] [5, 6] (by norm_num) (by simp) eval_ccb_five

/-- C6: construction fails with the configuration exception exactly when
the resolved bin count `(max_boundary - min_boundary)/bin_width` exceeds
`MAX_NUMBER_BINS`; on success the boundary array carries the full bin
count plus one, never a truncation. -/
theorem c6_max_bins_guard (maxBins : ℕ) (w : ℚ) (data : List ℚ)
    (hw : 0 < w) (hne : data ≠ []) :
    (compute_covering_bins maxBins w data = .error .configurationError ↔
      (maxBins : ℚ) < num_bins_of w data) ∧
    (∀ b, compute_covering_bins maxBins w data = .ok b →
      (b.length : ℚ) = num_bins_of w data + 1) := by
  constructor
  · cases data with
    | nil => exact absurd rfl hne
    | cons x xs =>
      show (if num_bins_of w (x :: xs) > ((maxBins : ℕ) : ℚ) then
          Except.error PyErr.configurationError
        else .ok (np_arange (min_boundary w (x :: xs))
          (max_boundary w (x :: xs) + w) w)) = .error .configurationError ↔ _
      by_cases hgt : ((maxBins : ℕ) : ℚ) < num_bins_of w (x :: xs)
      · rw [if_pos hgt]
        simp [hgt]
      · rw [if_neg hgt]
        simp [hgt]
  · intro b hok
    obtain ⟨m, hm1, hmb, hbg⟩ := ccb_spec maxBins w data b hw hne hok
    have hlen : b.length = m + 1 := by rw [hbg, grid_list_length]
    have hnb : num_bins_of w data = (m : ℚ) := by
      unfold num_bins_of
      rw [hmb]
      field_simp
    rw [hlen, hnb]
    push_cast
    ring

/-- C6 witness: with the limit set to 10 and data spanning 100 unit bins,
construction raises; the bin count 100 indeed exceeds 10. -/
theorem c6_max_bins_guard_witness :
    compute_covering_bins 10 1 [0, 100] = .error .configurationError ∧
    ((10 : ℕ) : ℚ) < num_bins_of 1 [0, 100] := by
  have h := (c6_max_bins_guard 10 1 [0, 100] (by norm_num) (by simp)).1
  have hnb : ((10 : ℕ) : ℚ) < num_bins_of 1 [0, 100] := by
    rw [eval_num_bins_wide]
    norm_num
  exact ⟨h.mpr hnb, hnb⟩

/-- C8: when the snapped minimum and maximum boundaries coincide, the
maximum is extended by one bin width, so the boundaries are exactly the
two distinct edges `[min_boundary, min_boundary + w]`; and a histogram
with exactly one sample has `std_per_video = 0`. -/
theorem c8_degenerate_guard (maxBins : ℕ) (w : ℚ) (data : List ℚ)
    (hw : 0 < w) (hne : data ≠ []) :
    (min_boundary w data = max_boundary_pre w data → 1 ≤ maxBins →
      compute_covering_bins maxBins w data =
        .ok [min_boundary w data, min_boundary w data + w] ∧
      min_boundary w data ≠ min_boundary w data + w) ∧
    (data.length = 1 → std_per_video_of data = 0) := by
  constructor
  · intro hdeg hmax
    have hmb : max_boundary w data = min_boundary w data + w := by
      unfold max_boundary
      rw [if_pos hdeg]
    have hnb : num_bins_of w data = 1 := by
      unfold num_bins_of
      rw [hmb]
      field_simp
    constructor
    · cases data with
      | nil => exact absurd rfl hne
      | cons x xs =>
        show (if num_bins_of w (x :: xs) > ((maxBins : ℕ) : ℚ) then
            Except.error PyErr.configurationError
          else .ok (np_arange (min_boundary w (x :: xs))
            (max_boundary w (x :: xs) + w) w)) = _
        rw [if_neg (by rw [hnb]; norm_num; omega)]
        rw [hmb]
        have h2 : min_boundary w (x :: xs) + w + w =
            min_boundary w (x :: xs) + ((2 : ℕ) : ℚ) * w := by
          push_cast
          ring
        rw [h2, np_arange_grid _ _ _ hw]
        have h3 : grid_list (min_boundary w (x :: xs)) w 2 =
            [min_boundary w (x :: xs), min_boundary w (x :: xs) + w] := by
          rw [grid_list_succ, grid_list_succ]
          simp [grid_list]
        rw [h3]
    · intro hcontra
      linarith
  · intro hone
    unfold std_per_video_of
    rw [if_pos hone]

/-- C8 witness: `data = [5.0]`, `bin_width = 1` gives boundaries `[5, 6]`
(two distinct edges) and `std_per_video = 0`. -/
theorem c8_degenerate_guard_witness :
    compute_covering_bins 1000 1 [5] = .ok [5, 6] ∧ (5 : ℚ) ≠ 6 ∧
      std_per_video_of [5] = 0 := by
  have h := c8_degenerate_guard 1000 1 [5] (by norm_num) (by simp)
  have h1 := h.1 (by rw [eval_min_boundary_five, eval_max_boundary_pre_five]) (by norm_num)
  refine ⟨?_, by norm_num, h.2 rfl⟩
  rw [h1.1, eval_min_boundary_five]
  norm_num

/-- C7 (amended): `create_histogram` returns the null sentinel, without
raising, exactly when the input is null, not an array, or empty; for a
non-empty array it returns an instance when the resolved bin count is
within `MAX_NUMBER_BINS`, and otherwise the construction exception
propagates instead of an instance being returned. -/
theorem c7_create_histogram (maxBins : ℕ) (w : ℚ) (input : NpInput) :
    (create_histogram maxBins w input = .ok none ↔
      (input = .pyNone ∨ input = .notArray ∨ input = .ndarray [])) ∧
    (∀ d : List ℚ, input = .ndarray d → d ≠ [] →
      ((num_bins_of w d ≤ (maxBins : ℚ) →
          ∃ hist, create_histogram maxBins w input = .ok (some hist)) ∧
       ((maxBins : ℚ) < num_bins_of w d →
          create_histogram maxBins w input = .error .configurationError))) := by
  cases input with
  | pyNone =>
    refine ⟨by simp [create_histogram], ?_⟩
    intro d hd
    cases hd
  | notArray =>
    refine ⟨by simp [create_histogram], ?_⟩
    intro d hd
    cases hd
  | ndarray d =>
    constructor
    · cases d with
      | nil => simp [create_histogram]
      | cons x xs =>
        show ((compute_covering_bins maxBins w (x :: xs)).map
            (fun b => some (⟨x :: xs, b⟩ : PerVideoHist)) = .ok none) ↔ _
        constructor
        · intro hmap
          exfalso
          cases hccb : compute_covering_bins maxBins w (x :: xs) with
          | error e => rw [hccb] at hmap; cases hmap
          | ok b => rw [hccb] at hmap; cases hmap
        · intro hcontra
          rcases hcontra with h | h | h
          · cases h
          · cases h
          · cases h
    · intro d2 hd2 hne
      have hdd : d = d2 := by cases hd2; rfl
      subst hdd
      cases d with
      | nil => exact absurd rfl hne
      | cons x xs =>
        have hshape : create_histogram maxBins w (.ndarray (x :: xs)) =
            (compute_covering_bins maxBins w (x :: xs)).map
              (fun b => some (⟨x :: xs, b⟩ : PerVideoHist)) := rfl
        constructor
        · intro hle
          have hccb : compute_covering_bins maxBins w (x :: xs) =
              .ok (np_arange (min_boundary w (x :: xs))
                (max_boundary w (x :: xs) + w) w) := by
            show (if num_bins_of w (x :: xs) > ((maxBins : ℕ) : ℚ) then
                Except.error PyErr.configurationError
              else .ok (np_arange (min_boundary w (x :: xs))
                (max_boundary w (x :: xs) + w) w)) = _
            rw [if_neg (not_lt.mpr hle)]
          refine ⟨⟨x :: xs, np_arange (min_boundary w (x :: xs))
            (max_boundary w (x :: xs) + w) w⟩, ?_⟩
          rw [hshape, hccb]
          rfl
        · intro hgt
          have hccb : compute_covering_bins maxBins w (x :: xs) =
              .error .configurationError := by
            show (if num_bins_of w (x :: xs) > ((maxBins : ℕ) : ℚ) then
                Except.error PyErr.configurationError
              else .ok (np_arange (min_boundary w (x :: xs))
                (max_boundary w (x :: xs) + w) w)) = _
            rw [if_pos hgt]
          rw [hshape, hccb]
          rfl

/-- C7 counterexample: a non-empty array whose resolved bin count (100)
exceeds the limit (10) makes `create_histogram` raise instead of
returning an instance. -/
theorem c7_counterexample :
    create_histogram 10 1 (.ndarray [0, 100]) = .error .configurationError ∧
    ¬ (∃ hist, create_histogram 10 1 (.ndarray [0, 100]) = .ok (some hist)) := by
  have h : create_histogram 10 1 (.ndarray [0, 100]) = .error .configurationError := by
    show (compute_covering_bins 10 1 [0, 100]).map
        (fun b => some (⟨[0, 100], b⟩ : PerVideoHist)) = _
    rw [eval_ccb_wide]
    rfl
  refine ⟨h, ?_⟩
  rintro ⟨hist, hcontra⟩
  rw [h] at hcontra
  cases hcontra


theorem eval_first_mids :
    [histA, histB].map first_bin_midpoint = [3/2, 5/2] := rfl

theorem eval_last_mids :
    [histA, histB].map last_bin_midpoint = [7/2, 11/2] := rfl

theorem eval_min_mid : py_min ([histA, histB].map first_bin_midpoint) = 3/2 := by
  rw [eval_first_mids]
  show min (3/2 : ℚ) (5/2) = 3/2
  exact min_eq_left (by norm_num)

theorem eval_max_mid : py_max ([histA, histB].map last_bin_midpoint) = 11/2 := by
  rw [eval_last_mids]
  show max (7/2 : ℚ) (11/2) = 11/2
  exact max_eq_right (by norm_num)

theorem eval_merged_mids :
    merged_bin_midpoints 1 [histA, histB] = [3/2, 5/2, 7/2, 9/2, 11/2] := by
  unfold merged_bin_midpoints
  rw [eval_min_mid, eval_max_mid]
  rw [np_arange, show (⌈(((11:ℚ)/2 + 1) - 3/2) / 1⌉).toNat = 5 from by norm_num; rfl]
  simp [grid_list, List.range_succ]
  norm_num

theorem eval_np_round_zero : np_round ((first_bin_midpoint histA -
    py_min ([histA, histB].map first_bin_midpoint)) / 1) = 0 := by
  rw [eval_min_mid, show first_bin_midpoint histA = 3/2 from rfl]
  unfold np_round
  norm_num

theorem eval_np_round_one : np_round ((first_bin_midpoint histB -
    py_min ([histA, histB].map first_bin_midpoint)) / 1) = 1 := by
  rw [eval_min_mid, show first_bin_midpoint histB = 5/2 from rfl]
  unfold np_round
  norm_num

theorem eval_merged_counts :
    merged_counts 1 [histA, histB] = .ok [[2, 3, 1, 0, 0], [0, 1, 4, 2, 0]] := by
  have hL : (merged_bin_midpoints 1 [histA, histB]).length = 5 := by
    rw [eval_merged_mids]
    rfl
  have hfA : slice_assign
      (List.replicate (merged_bin_midpoints 1 [histA, histB]).length 0)
      (np_round ((first_bin_midpoint histA -
        py_min ([histA, histB].map first_bin_midpoint)) / 1))
      ((np_round ((first_bin_midpoint histA -
        py_min ([histA, histB].map first_bin_midpoint)) / 1)) + (num_bins histA : ℤ))
      histA.counts = .ok [2, 3, 1, 0, 0] := by
    rw [eval_np_round_zero, hL]
    decide
  have hfB : slice_assign
      (List.replicate (merged_bin_midpoints 1 [histA, histB]).length 0)
      (np_round ((first_bin_midpoint histB -
        py_min ([histA, histB].map first_bin_midpoint)) / 1))
      ((np_round ((first_bin_midpoint histB -
        py_min ([histA, histB].map first_bin_midpoint)) / 1)) + (num_bins histB : ℤ))
      histB.counts = .ok [0, 1, 4, 2, 0] := by
    rw [eval_np_round_one, hL]
    decide
  show [histA, histB].mapM (fun r =>
      slice_assign (List.replicate (merged_bin_midpoints 1 [histA, histB]).length 0)
        (np_round ((first_bin_midpoint r -
          py_min ([histA, histB].map first_bin_midpoint)) / 1))
        ((np_round ((first_bin_midpoint r -
          py_min ([histA, histB].map first_bin_midpoint)) / 1)) + (num_bins r : ℤ))
        r.counts) = .ok [[2, 3, 1, 0, 0], [0, 1, 4, 2, 0]]
  simp only [List.mapM_cons, List.mapM_nil]
  rw [hfA, hfB]
  rfl

theorem eval_merged_pdf :
    merged_pdf 1 [histA, histB] = .ok [2/13, 4/13, 5/13, 2/13, 0] := by
  unfold merged_pdf
  rw [eval_merged_counts]
  have h1 : py_sum_rows [[2, 3, 1, 0, 0], [0, 1, 4, 2, 0]] = [2, 4, 5, 2, 0] := by
    decide
  show Except.ok (pdf_from_counts [[2, 3, 1, 0, 0], [0, 1, 4, 2, 0]]
      (merged_num_samples [histA, histB])) = _
  unfold pdf_from_counts
  rw [h1, show (merged_num_samples [histA, histB]).sum = 13 from rfl]
  norm_num


theorem np_round_intCast (k : ℤ) : np_round ((k : ℤ) : ℚ) = k := by
  unfold np_round
  rw [Int.floor_intCast]
  norm_num

theorem slice_norm_natCast (n s : ℕ) : slice_norm n (s : ℤ) = min n s := by
  unfold slice_norm
  rw [if_neg (not_lt.mpr (Int.natCast_nonneg s))]
  omega

theorem slice_assign_exact (L s n : ℕ) (vals : List ℕ) (hlen : vals.length = n)
    (hfit : s + n ≤ L) :
    slice_assign (List.replicate L 0) (s : ℤ) ((s : ℤ) + (n : ℤ)) vals =
      .ok (List.replicate s 0 ++ vals ++ List.replicate (L - s - n) 0) := by
  unfold slice_assign
  simp only [List.length_replicate]
  have hsum : (s : ℤ) + (n : ℤ) = ((s + n : ℕ) : ℤ) := by push_cast; ring
  rw [slice_norm_natCast, hsum, slice_norm_natCast]
  rw [if_pos (by omega)]
  rw [List.take_replicate, List.drop_replicate, hlen]
  rw [show min (min L s) L = s from by omega,
    show L - (min L s + n) = L - s - n from by omega]

theorem slice_assign_ok_length (row : List ℕ) (s e : ℤ) (vals out : List ℕ)
    (hok : slice_assign row s e vals = .ok out) : out.length = row.length := by
  unfold slice_assign at hok
  set s2 := slice_norm row.length s with hs2
  set e2 := slice_norm row.length e with he2
  have hs2le : s2 ≤ row.length := by
    rw [hs2]; unfold slice_norm; omega
  have he2le : e2 ≤ row.length := by
    rw [he2]; unfold slice_norm; omega
  by_cases h1 : e2 - s2 = vals.length
  · rw [if_pos h1] at hok
    have hout := Except.ok.inj hok
    rw [← hout]
    simp only [List.length_append, List.length_take, List.length_drop]
    omega
  · rw [if_neg h1] at hok
    by_cases h2 : vals.length = 1
    · rw [if_pos h2] at hok
      have hout := Except.ok.inj hok
      rw [← hout]
      simp only [List.length_append, List.length_take, List.length_drop,
        List.length_replicate]
      omega
    · rw [if_neg h2] at hok
      cases hok

theorem mapM_ok_forall₂ {α β : Type} (f : α → Except PyErr β) :
    ∀ (l : List α) (out : List β), l.mapM f = .ok out →
      List.Forall₂ (fun x y => f x = .ok y) l out := by
  intro l
  induction l with
  | nil =>
    intro out h
    rw [List.mapM_nil] at h
    have h2 : (Except.ok ([] : List β) : Except PyErr (List β)) = .ok out := h
    rw [← Except.ok.inj h2]
    exact .nil
  | cons x xs ih =>
    intro out h
    rw [List.mapM_cons] at h
    cases hfx : f x with
    | error e =>
      rw [hfx] at h
      have h2 : (Except.error e : Except PyErr (List β)) = .ok out := h
      cases h2
    | ok y =>
      rw [hfx] at h
      have h2 : (xs.mapM f >>= fun ys =>
          pure (y :: ys) : Except PyErr (List β)) = .ok out := h
      cases hxs : xs.mapM f with
      | error e =>
        rw [hxs] at h2
        have h3 : (Except.error e : Except PyErr (List β)) = .ok out := h2
        cases h3
      | ok ys =>
        rw [hxs] at h2
        have h3 : (Except.ok (y :: ys) : Except PyErr (List β)) = .ok out := h2
        rw [← Except.ok.inj h3]
        exact .cons hfx (ih ys hxs)

theorem mapM_ok_of_forall {α β : Type} (f : α → Except PyErr β) :
    ∀ (l : List α), (∀ x ∈ l, ∃ y, f x = .ok y) →
      ∃ out, l.mapM f = .ok out ∧
        List.Forall₂ (fun x y => f x = .ok y) l out := by
  intro l
  induction l with
  | nil => exact fun _ => ⟨[], rfl, .nil⟩
  | cons x xs ih =>
    intro h
    obtain ⟨y, hy⟩ := h x (List.mem_cons_self _ _)
    obtain ⟨ys, hys, hf⟩ := ih (fun z hz => h z (List.mem_cons_of_mem _ hz))
    refine ⟨y :: ys, ?_, .cons hy hf⟩
    rw [List.mapM_cons, hy, hys]
    rfl


theorem mid_grid_length (w : ℚ) (z : ℤ) (n : ℕ) : (mid_grid w z n).length = n :=
  grid_list_length _ _ _

theorem mid_grid_headD (w : ℚ) (z : ℤ) (n : ℕ) (hn : 0 < n) :
    (mid_grid w z n).headD 0 = (z : ℚ) * w + w / 2 :=
  grid_list_headD _ _ _ hn

theorem mid_grid_getLastD (w : ℚ) (z : ℤ) (n : ℕ) (hn : 0 < n) :
    (mid_grid w z n).getLastD 0 = (z : ℚ) * w + w / 2 + ((n - 1 : ℕ) : ℚ) * w :=
  grid_list_getLastD _ _ _ hn

theorem merged_row_value (w : ℚ) (minMid : ℚ) (r : HistRecord)
    (hw : 0 < w) (z z0 : ℤ) (n LL : ℕ) (hn : 0 < n)
    (hmid : r.bin_midpoints = mid_grid w z n)
    (hcnt : r.counts.length = n)
    (hmin : minMid = (z0 : ℚ) * w + w / 2)
    (hz0 : z0 ≤ z)
    (hfit : (z - z0).toNat + n ≤ LL) :
    slice_assign (List.replicate LL 0)
      (np_round ((first_bin_midpoint r - minMid) / w))
      (np_round ((first_bin_midpoint r - minMid) / w) + (num_bins r : ℤ))
      r.counts =
    .ok (List.replicate (z - z0).toNat 0 ++ r.counts ++
      List.replicate (LL - (z - z0).toNat - n) 0) := by
  have hfirst : first_bin_midpoint r = (z : ℚ) * w + w / 2 := by
    unfold first_bin_midpoint
    rw [hmid]
    exact mid_grid_headD w z n hn
  have hdiff : (first_bin_midpoint r - minMid) / w = ((z - z0 : ℤ) : ℚ) := by
    rw [hfirst, hmin]
    field_simp
    ring
  have hrnd : np_round ((first_bin_midpoint r - minMid) / w) = z - z0 := by
    rw [hdiff, np_round_intCast]
  have hnum : num_bins r = n := by
    unfold num_bins
    rw [hmid]
    exact mid_grid_length w z n
  rw [hrnd, hnum]
  have hcast : (z - z0 : ℤ) = (((z - z0).toNat : ℕ) : ℤ) :=
    (Int.toNat_of_nonneg (by omega)).symm
  rw [hcast]
  exact slice_assign_exact LL (z - z0).toNat n r.counts hcnt hfit

theorem merged_row_round (w minMid : ℚ) (r : HistRecord) (hw : 0 < w)
    (z z0 : ℤ) (n : ℕ) (hn : 0 < n)
    (hmid : r.bin_midpoints = mid_grid w z n)
    (hmin : minMid = (z0 : ℚ) * w + w / 2) :
    np_round ((first_bin_midpoint r - minMid) / w) = z - z0 := by
  have hfirst : first_bin_midpoint r = (z : ℚ) * w + w / 2 := by
    unfold first_bin_midpoint
    rw [hmid]
    exact mid_grid_headD w z n hn
  have hdiff : (first_bin_midpoint r - minMid) / w = ((z - z0 : ℤ) : ℚ) := by
    rw [hfirst, hmin]
    field_simp
    ring
  rw [hdiff, np_round_intCast]

theorem merged_counts_eq (w : ℚ) (hists : List HistRecord) (hne : hists ≠ []) :
    merged_counts w hists = hists.mapM (fun r =>
      slice_assign (List.replicate (merged_bin_midpoints w hists).length 0)
        (np_round ((first_bin_midpoint r -
          py_min (hists.map first_bin_midpoint)) / w))
        (np_round ((first_bin_midpoint r -
          py_min (hists.map first_bin_midpoint)) / w) + (num_bins r : ℤ))
        r.counts) := by
  cases hists with
  | nil => exact absurd rfl hne
  | cons r rs => rfl

/-- C1: on grid-aligned inputs the merge factory's counts matrix has one
row per input and one column per merged midpoint; row `i` is input `i`'s
counts placed contiguously at `round((first_mid_i - min_mid)/w)` with
zeros elsewhere, so each merged row sums to its input's total count. -/
theorem c1_merged_counts_layout (w : ℚ) (hists : List HistRecord)
    (hw : 0 < w) (hne : hists ≠ [])
    (hgrid : ∀ r ∈ hists, ∃ z : ℤ, ∃ n : ℕ, 0 < n ∧
      r.bin_midpoints = mid_grid w z n ∧ r.counts.length = n) :
    ∃ M, merged_counts w hists = .ok M ∧
      M.length = hists.length ∧
      ∀ i : ℕ, ∀ hi : i < hists.length, ∃ s : ℕ,
        (s : ℤ) = np_round ((first_bin_midpoint (hists.getD i default) -
          py_min (hists.map first_bin_midpoint)) / w) ∧
        M.getD i [] = List.replicate s 0 ++ (hists.getD i default).counts ++
          List.replicate ((merged_bin_midpoints w hists).length - s -
            (hists.getD i default).counts.length) 0 ∧
        (M.getD i []).length = (merged_bin_midpoints w hists).length ∧
        (M.getD i []).sum = (hists.getD i default).counts.sum := by
  set fm := hists.map first_bin_midpoint with hfm
  set minMid := py_min fm with hminMid_def
  have hfm_ne : fm ≠ [] := by
    rw [hfm]
    simpa using hne
  obtain ⟨r0, hr0mem, hr0eq⟩ := List.mem_map.mp (py_min_mem hfm_ne)
  obtain ⟨z0, n0, hn0, hmid0, hcnt0⟩ := hgrid r0 hr0mem
  have hmin : minMid = (z0 : ℚ) * w + w / 2 := by
    rw [hminMid_def, hfm, ← hr0eq]
    unfold first_bin_midpoint
    rw [hmid0]
    exact mid_grid_headD w z0 n0 hn0
  have hkey : ∀ r ∈ hists, ∃ z : ℤ, ∃ n : ℕ, 0 < n ∧
      r.bin_midpoints = mid_grid w z n ∧ r.counts.length = n ∧ z0 ≤ z := by
    intro r hr
    obtain ⟨z, n, hn, hmid, hcnt⟩ := hgrid r hr
    refine ⟨z, n, hn, hmid, hcnt, ?_⟩
    have h1 : minMid ≤ first_bin_midpoint r := py_min_le (List.mem_map_of_mem _ hr)
    have h2 : first_bin_midpoint r = (z : ℚ) * w + w / 2 := by
      unfold first_bin_midpoint
      rw [hmid]
      exact mid_grid_headD w z n hn
    rw [hmin, h2] at h1
    have h3 : (z0 : ℚ) * w ≤ (z : ℚ) * w := by linarith
    have h4 : (z0 : ℚ) ≤ (z : ℚ) := le_of_mul_le_mul_right h3 hw
    exact_mod_cast h4
  set lm := hists.map last_bin_midpoint with hlm
  set maxMid := py_max lm with hmax_def
  have hlm_ne : lm ≠ [] := by
    rw [hlm]
    simpa using hne
  obtain ⟨r1, hr1mem, hr1eq⟩ := List.mem_map.mp (py_max_mem hlm_ne)
  obtain ⟨z1, n1, hn1, hmid1, hcnt1, hz01⟩ := hkey r1 hr1mem
  have hmaxMid : maxMid = (z1 : ℚ) * w + w / 2 + ((n1 - 1 : ℕ) : ℚ) * w := by
    rw [hmax_def, hlm, ← hr1eq]
    unfold last_bin_midpoint
    rw [hmid1]
    exact mid_grid_getLastD w z1 n1 hn1
  set KK : ℤ := z1 - z0 + n1 with hKK
  have hKKpos : 1 ≤ KK := by
    rw [hKK]
    omega
  have hstop : maxMid + w = minMid + (KK : ℚ) * w := by
    rw [hmaxMid, hmin, hKK]
    have hc : ((n1 - 1 : ℕ) : ℚ) = (n1 : ℚ) - 1 := by
      push_cast [Nat.cast_sub hn1]
      ring
    rw [hc]
    push_cast
    ring
  have hmids : merged_bin_midpoints w hists = grid_list minMid w KK.toNat := by
    show np_arange minMid (maxMid + w) w = grid_list minMid w KK.toNat
    rw [hstop]
    exact np_arange_grid_int minMid w KK hw (by omega)
  have hL : (merged_bin_midpoints w hists).length = KK.toNat := by
    rw [hmids, grid_list_length]
  have hfit : ∀ r ∈ hists, ∀ z : ℤ, ∀ n : ℕ, 0 < n →
      r.bin_midpoints = mid_grid w z n → z0 ≤ z →
      (z - z0).toNat + n ≤ KK.toNat := by
    intro r hr z n hn hmid hz0r
    have h1 : last_bin_midpoint r ≤ maxMid := le_py_max (List.mem_map_of_mem _ hr)
    have h2 : last_bin_midpoint r = (z : ℚ) * w + w / 2 + ((n - 1 : ℕ) : ℚ) * w := by
      unfold last_bin_midpoint
      rw [hmid]
      exact mid_grid_getLastD w z n hn
    rw [h2, hmaxMid] at h1
    have hc : ((n - 1 : ℕ) : ℚ) = (n : ℚ) - 1 := by
      push_cast [Nat.cast_sub hn]
      ring
    have hc1 : ((n1 - 1 : ℕ) : ℚ) = (n1 : ℚ) - 1 := by
      push_cast [Nat.cast_sub hn1]
      ring
    rw [hc, hc1] at h1
    have h3 : ((z : ℚ) + (n : ℚ)) * w ≤ ((z1 : ℚ) + (n1 : ℚ)) * w := by
      ring_nf
      ring_nf at h1
      linarith
    have h4 : (z : ℚ) + (n : ℚ) ≤ (z1 : ℚ) + (n1 : ℚ) := le_of_mul_le_mul_right h3 hw
    have h5 : z + (n : ℤ) ≤ z1 + (n1 : ℤ) := by exact_mod_cast h4
    rw [hKK]
    omega
  have hall : ∀ r ∈ hists, ∃ y,
      slice_assign (List.replicate (merged_bin_midpoints w hists).length 0)
        (np_round ((first_bin_midpoint r - minMid) / w))
        (np_round ((first_bin_midpoint r - minMid) / w) + (num_bins r : ℤ))
        r.counts = .ok y := by
    intro r hr
    obtain ⟨z, n, hn, hmid, hcnt, hz0r⟩ := hkey r hr
    exact ⟨_, merged_row_value w minMid r hw z z0 n
      (merged_bin_midpoints w hists).length hn hmid hcnt hmin hz0r
      (by rw [hL]; exact hfit r hr z n hn hmid hz0r)⟩
  obtain ⟨M, hM, hF⟩ := mapM_ok_of_forall (fun r =>
      slice_assign (List.replicate (merged_bin_midpoints w hists).length 0)
        (np_round ((first_bin_midpoint r - minMid) / w))
        (np_round ((first_bin_midpoint r - minMid) / w) + (num_bins r : ℤ))
        r.counts) hists hall
  refine ⟨M, ?_, ?_, ?_⟩
  · rw [merged_counts_eq w hists hne]
    exact hM
  · exact hF.length_eq.symm
  · intro i hi
    have hi2 : i < M.length := by
      rw [← hF.length_eq]
      exact hi
    have hfr := (List.forall₂_iff_get.mp hF).2 i hi hi2
    have hrmem : hists.get ⟨i, hi⟩ ∈ hists := hists.get_mem _ _
    obtain ⟨z, n, hn, hmid, hcnt, hz0r⟩ := hkey (hists.get ⟨i, hi⟩) hrmem
    have hrow := merged_row_value w minMid (hists.get ⟨i, hi⟩) hw z z0 n
      (merged_bin_midpoints w hists).length hn hmid hcnt hmin hz0r
      (by rw [hL]; exact hfit _ hrmem z n hn hmid hz0r)
    have hMi : M.get ⟨i, hi2⟩ =
        List.replicate (z - z0).toNat 0 ++ (hists.get ⟨i, hi⟩).counts ++
          List.replicate ((merged_bin_midpoints w hists).length -
            (z - z0).toNat - n) 0 :=
      Except.ok.inj (hfr.symm.trans hrow)
    have hgetr : hists.getD i default = hists.get ⟨i, hi⟩ :=
      List.getD_eq_getElem hists default hi
    have hgetM : M.getD i [] = M.get ⟨i, hi2⟩ :=
      List.getD_eq_getElem M [] hi2
    refine ⟨(z - z0).toNat, ?_, ?_, ?_, ?_⟩
    · rw [hgetr]
      rw [merged_row_round w minMid (hists.get ⟨i, hi⟩) hw z z0 n hn hmid hmin]
      exact Int.toNat_of_nonneg (by omega)
    · rw [hgetM, hMi, hgetr, hcnt]
    · rw [hgetM]
      have := slice_assign_ok_length _ _ _ _ _ hfr
      rw [this, List.length_replicate]
    · rw [hgetM, hMi, hgetr]
      simp only [List.sum_append, List.sum_replicate, smul_eq_mul, Nat.mul_zero]
      omega

theorem histA_mid_grid : histA.bin_midpoints = mid_grid 1 1 3 := by
  show [3/2, 5/2, 7/2] = mid_grid 1 1 3
  unfold mid_grid grid_list
  simp [List.range_succ]
  norm_num

theorem histB_mid_grid : histB.bin_midpoints = mid_grid 1 2 4 := by
  show [5/2, 7/2, 9/2, 11/2] = mid_grid 1 2 4
  unfold mid_grid grid_list
  simp [List.range_succ]
  norm_num

/-- C1 witness: merging the two example histograms succeeds, yields one
row per input, and each merged row keeps its input's total count. -/
theorem c1_merged_counts_layout_witness :
    ∃ M, merged_counts 1 [histA, histB] = .ok M ∧ M.length = 2 ∧
      (M.getD 0 []).sum = histA.counts.sum ∧
      (M.getD 1 []).sum = histB.counts.sum := by
  have hgrid : ∀ r ∈ [histA, histB], ∃ z : ℤ, ∃ n : ℕ, 0 < n ∧
      r.bin_midpoints = mid_grid 1 z n ∧ r.counts.length = n := by
    intro r hr
    simp only [List.mem_cons, List.not_mem_nil, or_false] at hr
    rcases hr with rfl | rfl
    · exact ⟨1, 3, by norm_num, histA_mid_grid, rfl⟩
    · exact ⟨2, 4, by norm_num, histB_mid_grid, rfl⟩
  obtain ⟨M, hM, hlen, hrows⟩ :=
    c1_merged_counts_layout 1 [histA, histB] (by norm_num) (by simp) hgrid
  obtain ⟨s0, hs0, hrow0, hlen0, hsum0⟩ := hrows 0 (by norm_num)
  obtain ⟨s1, hs1, hrow1, hlen1, hsum1⟩ := hrows 1 (by norm_num)
  exact ⟨M, hM, by simpa using hlen, by simpa using hsum0, by simpa using hsum1⟩


theorem zip_add_getD : ∀ (a b : List ℕ), a.length = b.length → ∀ (j : ℕ),
    (a.zipWith (· + ·) b).getD j 0 = a.getD j 0 + b.getD j 0
  | [], [], _, j => by simp
  | [], _ :: _, hab, j => by simp at hab
  | _ :: _, [], hab, j => by simp at hab
  | x :: xs, y :: ys, hab, 0 => by simp
  | x :: xs, y :: ys, hab, j + 1 => by
    simp only [List.zipWith_cons_cons, List.getD_cons_succ]
    exact zip_add_getD xs ys (by simpa using hab) j

theorem foldl_zip_add_spec (L : ℕ) :
    ∀ (rs : List (List ℕ)) (acc : List ℕ), acc.length = L →
      (∀ row ∈ rs, row.length = L) →
      (rs.foldl (fun a row => a.zipWith (· + ·) row) acc).length = L ∧
      ∀ j, (rs.foldl (fun a row => a.zipWith (· + ·) row) acc).getD j 0 =
        acc.getD j 0 + (rs.map (fun row => row.getD j 0)).sum
  | [], acc, hacc, _ => ⟨hacc, by simp⟩
  | r :: rs, acc, hacc, hall => by
    have hr : r.length = L := hall r (List.mem_cons_self _ _)
    have hlen : (acc.zipWith (· + ·) r).length = L := by
      rw [List.length_zipWith, hacc, hr]
      omega
    obtain ⟨ih1, ih2⟩ := foldl_zip_add_spec L rs (acc.zipWith (· + ·) r) hlen
      (fun row hrow => hall row (List.mem_cons_of_mem _ hrow))
    refine ⟨ih1, ?_⟩
    intro j
    rw [List.foldl_cons, ih2 j, zip_add_getD acc r (by rw [hacc, hr]) j]
    simp only [List.map_cons, List.sum_cons]
    omega

theorem py_sum_rows_spec (M : List (List ℕ)) (L : ℕ) (hne : M ≠ [])
    (hlen : ∀ row ∈ M, row.length = L) :
    (py_sum_rows M).length = L ∧
    ∀ j, (py_sum_rows M).getD j 0 = (M.map (fun row => row.getD j 0)).sum := by
  cases M with
  | nil => exact absurd rfl hne
  | cons r rs =>
    obtain ⟨h1, h2⟩ := foldl_zip_add_spec L rs r (hlen r (List.mem_cons_self _ _))
      (fun row hrow => hlen row (List.mem_cons_of_mem _ hrow))
    refine ⟨h1, ?_⟩
    intro j
    show (rs.foldl (fun a row => a.zipWith (· + ·) row) r).getD j 0 = _
    rw [h2 j]
    simp only [List.map_cons, List.sum_cons]

theorem merged_counts_row_lengths (w : ℚ) (hists : List HistRecord)
    (M : List (List ℕ)) (hM : merged_counts w hists = .ok M) :
    hists ≠ [] ∧ M.length = hists.length ∧
    ∀ row ∈ M, row.length = (merged_bin_midpoints w hists).length := by
  have hne : hists ≠ [] := by
    intro h
    subst h
    cases hM
  rw [merged_counts_eq w hists hne] at hM
  have hF := mapM_ok_forall₂ _ hists M hM
  refine ⟨hne, hF.length_eq.symm, ?_⟩
  intro row hrow
  obtain ⟨⟨i, hi⟩, rfl⟩ := List.mem_iff_get.mp hrow
  have hil : i < hists.length := by
    rw [hF.length_eq]
    exact hi
  have hget := (List.forall₂_iff_get.mp hF).2 i hil hi
  have hlen := slice_assign_ok_length _ _ _ _ _ hget
  rw [hlen, List.length_replicate]

/-- C5: the merged pdf is the column-wise sum of the merged counts matrix
divided by the total sample count over all input histograms (one combined
density, not an average of per-video densities). -/
theorem c5_merged_pdf_combined (w : ℚ) (hists : List HistRecord)
    (M : List (List ℕ)) (hM : merged_counts w hists = .ok M) :
    ∃ p, merged_pdf w hists = .ok p ∧
      p.length = (merged_bin_midpoints w hists).length ∧
      ∀ j, j < p.length →
        p.getD j 0 = (((M.map (fun row => row.getD j 0)).sum : ℕ) : ℚ) /
          (((merged_num_samples hists).sum : ℕ) : ℚ) := by
  obtain ⟨hne, hMlen, hrows⟩ := merged_counts_row_lengths w hists M hM
  have hMne : M ≠ [] := by
    intro h
    subst h
    exact hne (List.length_eq_zero.mp hMlen.symm)
  obtain ⟨hslen, hsget⟩ :=
    py_sum_rows_spec M (merged_bin_midpoints w hists).length hMne hrows
  refine ⟨pdf_from_counts M (merged_num_samples hists), ?_, ?_, ?_⟩
  · unfold merged_pdf
    rw [hM]
    rfl
  · unfold pdf_from_counts
    rw [List.length_map, hslen]
  · intro j hj
    unfold pdf_from_counts at hj ⊢
    rw [List.length_map] at hj
    rw [List.getD_eq_getElem _ _ (by rw [List.length_map]; exact hj),
      List.getElem_map, ← List.getD_eq_getElem _ _ hj, hsget j]

/-- C5 witness: merging the example histograms A and B yields the spec's
combined density `[2, 4, 5, 2, 0] / 13`. -/
theorem c5_merged_pdf_combined_witness :
    merged_pdf 1 [histA, histB] = .ok [2/13, 4/13, 5/13, 2/13, 0] := by
  obtain ⟨p, hp, hlen, hcol⟩ := c5_merged_pdf_combined 1 [histA, histB]
    [[2, 3, 1, 0, 0], [0, 1, 4, 2, 0]] eval_merged_counts
  exact eval_merged_pdf


/-- C9: a per-video histogram's `mean_per_video` is a numpy scalar, so
`num_valid_measurements` and `p_normal` — which sum and index it as an
array — raise `TypeError` instead of returning a value; on a merged
histogram `mean_per_video` is an array with one entry per video and
`num_valid_measurements` succeeds. -/
theorem c9_scalar_mean_raises (shapiro : PyV ℚ → ℚ) (data : List ℚ)
    (hists : List HistRecord) (hne : data ≠ []) :
    per_video_mean_attr data = PyV.one (mean_per_video_of data) ∧
    num_valid_measurements (per_video_mean_attr data) = .error .typeError ∧
    p_normal shapiro (per_video_mean_attr data) = .error .typeError ∧
    merged_mean_attr hists = PyV.many (hists.map HistRecord.mean_per_video) ∧
    (hists.map HistRecord.mean_per_video).length = hists.length ∧
    num_valid_measurements (merged_mean_attr hists) = .ok hists.length := by
  refine ⟨rfl, rfl, rfl, rfl, List.length_map _ _, ?_⟩
  show Except.ok (hists.map HistRecord.mean_per_video).length = _
  rw [List.length_map]

/-- C9 witness: instantiated at `data = [5]` and the example input list. -/
theorem c9_scalar_mean_raises_witness :
    per_video_mean_attr [5] = PyV.one (mean_per_video_of [5]) ∧
    num_valid_measurements (per_video_mean_attr [5]) = .error .typeError ∧
    p_normal (fun _ => 0) (per_video_mean_attr [5]) = .error .typeError ∧
    merged_mean_attr [histA, histB] =
      PyV.many ([histA, histB].map HistRecord.mean_per_video) ∧
    ([histA, histB].map HistRecord.mean_per_video).length = [histA, histB].length ∧
    num_valid_measurements (merged_mean_attr [histA, histB]) =
      .ok [histA, histB].length :=
  c9_scalar_mean_raises (fun _ => 0) [5] [histA, histB] (by simp)

/-- C10: every merged histogram is built with `data = None`, so it has no
`bin_boundaries` attribute (reading it raises `AttributeError`), while
`bin_midpoints`, `counts`, `num_samples`, `mean_per_video`,
`std_per_video` and `pdf` are all readable because the factory assigns
their caches directly. -/
theorem c10_merged_attribute_surface (maxBins : ℕ) (w : ℚ)
    (hists : List HistRecord) (M : List (List ℕ))
    (hM : merged_counts w hists = .ok M) :
    ∃ h, merged_histogram_factory maxBins w hists = .ok h ∧
      h.data = none ∧
      get_bin_boundaries h = .error .attributeError ∧
      get_bin_midpoints w h = .ok (merged_bin_midpoints w hists) ∧
      get_counts h = .ok (.many M) ∧
      get_num_samples h = .ok (.many (merged_num_samples hists)) ∧
      get_mean_per_video h = .ok (.many (hists.map HistRecord.mean_per_video)) ∧
      get_std_per_video h = .ok (.many (hists.map HistRecord.std_per_video)) ∧
      get_pdf h = .ok (some (pdf_from_counts M (merged_num_samples hists))) := by
  have hne : hists ≠ [] := by
    intro h
    subst h
    cases hM
  cases hists with
  | nil => exact absurd rfl hne
  | cons r rs =>
    have hfac : merged_histogram_factory maxBins w (r :: rs) = .ok
        ⟨none, none, some (merged_bin_midpoints w (r :: rs)), some (.many M),
          some (.many (merged_num_samples (r :: rs))),
          some (.many ((r :: rs).map HistRecord.mean_per_video)),
          some (.many ((r :: rs).map HistRecord.std_per_video)),
          some (some (pdf_from_counts M (merged_num_samples (r :: rs))))⟩ := by
      show (merged_counts w (r :: rs)).map _ = _
      rw [hM]
      rfl
    exact ⟨_, hfac, rfl, rfl, rfl, rfl, rfl, rfl, rfl, rfl⟩

/-- C10 witness: the merged example histogram object has no
`bin_boundaries` but exposes all factory-assigned statistics. -/
theorem c10_merged_attribute_surface_witness :
    ∃ h, merged_histogram_factory 1000 1 [histA, histB] = .ok h ∧
      h.data = none ∧
      get_bin_boundaries h = .error .attributeError ∧
      get_bin_midpoints 1 h = .ok (merged_bin_midpoints 1 [histA, histB]) ∧
      get_counts h = .ok (.many [[2, 3, 1, 0, 0], [0, 1, 4, 2, 0]]) ∧
      get_num_samples h = .ok (.many (merged_num_samples [histA, histB])) ∧
      get_mean_per_video h =
        .ok (.many ([histA, histB].map HistRecord.mean_per_video)) ∧
      get_std_per_video h =
        .ok (.many ([histA, histB].map HistRecord.std_per_video)) ∧
      get_pdf h = .ok (some (pdf_from_counts [[2, 3, 1, 0, 0], [0, 1, 4, 2, 0]]
        (merged_num_samples [histA, histB]))) :=
  c10_merged_attribute_surface 1000 1 [histA, histB]
    [[2, 3, 1, 0, 0], [0, 1, 4, 2, 0]] eval_merged_counts


theorem grid_list_dropLast (a w : ℚ) (n : ℕ) :
    (grid_list a w (n + 1)).dropLast = grid_list a w n := by
  rw [grid_list_concat]
  exact List.dropLast_concat

theorem grid_list_map_add (a w c : ℚ) (n : ℕ) :
    (grid_list a w n).map (fun b => b + c) = grid_list (a + c) w n := by
  unfold grid_list
  rw [List.map_map]
  apply List.map_congr_left
  intro j _
  simp only [Function.comp_apply]
  ring

/-- Every per-video histogram constructed by `compute_covering_bins` has
its bin midpoints on the half-offset grid assumed by the merge layout
theorem, with as many counts as midpoints: the shared-`bin_width` grid
alignment that makes merging exact. -/
theorem ccb_midpoints_grid (maxBins : ℕ) (w : ℚ) (data b : List ℚ)
    (hw : 0 < w) (hne : data ≠ [])
    (hok : compute_covering_bins maxBins w data = .ok b) :
    ∃ z : ℤ, ∃ n : ℕ, 0 < n ∧ bin_midpoints_of w b = mid_grid w z n ∧
      (np_histogram data b).length = n := by
  obtain ⟨m, hm1, hmb, hbg⟩ := ccb_spec maxBins w data b hw hne hok
  refine ⟨⌊py_min data / w⌋, m, hm1, ?_, ?_⟩
  · unfold bin_midpoints_of mid_grid
    rw [hbg, grid_list_dropLast, grid_list_map_add]
    rfl
  · rw [np_histogram_length, hbg, grid_list_length]
    omega
